import Mathlib

/-!
Shallow embedding of a fractal (IFS-based) image codec, consisting of an
encoder (fractal_compress.py), a decoder (fractal_decompress.py) and an
interactive decoder sharing the decoder's core (fractal_decompress_interactive.py).

Images are modelled as total functions from (row, column) to a rational
intensity; all floating-point arithmetic of the source is modelled exactly
over ℚ.  The source fixes IMAGE_SIZE = 512, RANGE_SIZE = 4, DOMAIN_SIZE = 8,
SYMMETRY_COUNT = 8; the embedding is parameterised by the image side `N` and
the range-block side `r` (with domain side `2*r` and symmetry count 8, as in
the source), and the source's constants are instantiated where a concrete
computation is needed.
-/

namespace Fractal

/-- An image (or tile): intensity at (row, column), modelled over ℚ. -/
abbrev Img : Type := ℕ → ℕ → ℚ

/-- One record of the persisted codebook, dtype
[("domain","i4"),("sym","i4"),("contrast","f4"),("offset","f4")]. -/
structure CodebookEntry where
  domain : ℕ
  sym : ℕ
  contrast : ℚ
  offset : ℚ
  deriving DecidableEq

/-- Raster-order tile of side `size` at linear index `b` of an `N×N` image:
`extract_blocks` stacks `image[y:y+size, x:x+size]` row-major, so block `b`
has origin `((b / (N/size)) * size, (b % (N/size)) * size)`. -/
def block (N size : ℕ) (img : Img) (b : ℕ) : Img :=
  fun i j => img ((b / (N / size)) * size + i) ((b % (N / size)) * size + j)

/-- Sum of the entries of the leading `r×r` square of a tile. -/
def tileSum (r : ℕ) (t : Img) : ℚ :=
  ∑ i ∈ Finset.range r, ∑ j ∈ Finset.range r, t i j

/-- Mean of the `r*r` pixels of an `r×r` tile (`.mean()` over the flattened block). -/
def tileMean (r : ℕ) (t : Img) : ℚ :=
  tileSum r t / ((r * r : ℕ) : ℚ)

/-- Index of the first minimum of `f` over `0, …, n-1` (the semantics of
`np.argmin`: ties resolved to the lowest index); `0` when `n = 0`. -/
def argminFirst (f : ℕ → ℚ) : ℕ → ℕ
  | 0 => 0
  | n + 1 =>
    let b := argminFirst f n
    if f n < f b then n else b

namespace FC

/-- Embeds `transform` of fractal_compress.py: `np.rot90(arr, k=sym % 4)` on the
last two axes, then `np.flip(·, axis=-1)` when `sym >= 4`.  A single
counter-clockwise quarter turn of an `n×n` tile sends `(i, j)` to the entry at
`(j, n-1-i)`. -/
def rot90 (n : ℕ) (a : Img) : Img :=
  fun i j => a j (n - 1 - i)

/-- Embeds `np.flip(arr, axis=-1)` on an `n×n` tile. -/
def flipLast (n : ℕ) (a : Img) : Img :=
  fun i j => a i (n - 1 - j)

/-- Embeds `transform(arr, sym)` of fractal_compress.py. -/
def transform (n : ℕ) (a : Img) (sym : ℕ) : Img :=
  let rotated := (rot90 n)^[sym % 4] a
  if 4 ≤ sym then flipLast n rotated else rotated

/-- Embeds `downscale` of fractal_compress.py: the 2×2 box filter
`(a[::2,::2] + a[::2,1::2] + a[1::2,::2] + a[1::2,1::2]) * 0.25`. -/
def downscale (a : Img) : Img :=
  fun i j =>
    (a (2 * i) (2 * j) + a (2 * i) (2 * j + 1) +
     a (2 * i + 1) (2 * j) + a (2 * i + 1) (2 * j + 1)) * (1 / 4)

/-- The ε of the encoder's degenerate-variant guard (`1e-6`). -/
def epsilon : ℚ := 1 / 1000000

/-- Variant `ℓ` of the precomputed table (`domain_variants` reshaped row-major,
domain index outer, symmetry inner): `downscale(transform(domain_block, sym))`
with `domain = ℓ / 8` and `sym = ℓ % 8`. -/
def variantTile (N r : ℕ) (img : Img) (ℓ : ℕ) : Img :=
  downscale (transform (2 * r) (block N (2 * r) img (ℓ / 8)) (ℓ % 8))

/-- Mean of variant `ℓ` (`variant_mean`). -/
def variantMean (N r : ℕ) (img : Img) (ℓ : ℕ) : ℚ :=
  tileMean r (variantTile N r img ℓ)

/-- Centered energy of variant `ℓ` (`variant_energy = Σ (pixel − mean)²`). -/
def variantEnergy (N r : ℕ) (img : Img) (ℓ : ℕ) : ℚ :=
  ∑ i ∈ Finset.range r, ∑ j ∈ Finset.range r,
    (variantTile N r img ℓ i j - variantMean N r img ℓ) *
    (variantTile N r img ℓ i j - variantMean N r img ℓ)

/-- Range block `b` of the source image (`image[y:y+4, x:x+4]` in raster order). -/
def rangeBlock (N r : ℕ) (img : Img) (b : ℕ) : Img :=
  block N r img b

/-- Mean of range block `b` (`target_mean`). -/
def targetMean (N r : ℕ) (img : Img) (b : ℕ) : ℚ :=
  tileMean r (rangeBlock N r img b)

/-- Centered energy of range block `b` (`target_energy`). -/
def targetEnergy (N r : ℕ) (img : Img) (b : ℕ) : ℚ :=
  ∑ i ∈ Finset.range r, ∑ j ∈ Finset.range r,
    (rangeBlock N r img b i j - targetMean N r img b) *
    (rangeBlock N r img b i j - targetMean N r img b)

/-- Cross-correlation of variant `ℓ` with range block `b`
(`numerator = einsum("ij,j->i", variant_centered, target_centered)`). -/
def numerator (N r : ℕ) (img : Img) (b ℓ : ℕ) : ℚ :=
  ∑ i ∈ Finset.range r, ∑ j ∈ Finset.range r,
    (variantTile N r img ℓ i j - variantMean N r img ℓ) *
    (rangeBlock N r img b i j - targetMean N r img b)

/-- Fitted contrast for variant `ℓ` against range block `b`:
`numerator / variant_energy`, replaced by `0` where `variant_energy ≤ 1e-6`
(`np.where(variant_energy > 1e-6, contrast, 0.0)`). -/
def contrastTable (N r : ℕ) (img : Img) (b ℓ : ℕ) : ℚ :=
  if epsilon < variantEnergy N r img ℓ then
    numerator N r img b ℓ / variantEnergy N r img ℓ
  else 0

/-- Squared fit error for variant `ℓ` against range block `b`:
`np.where(variant_energy > 1e-6, target_energy - numerator²/variant_energy,
target_energy)` followed by `np.maximum(·, 0.0)`. -/
def errorTable (N r : ℕ) (img : Img) (b ℓ : ℕ) : ℚ :=
  max
    (if epsilon < variantEnergy N r img ℓ then
      targetEnergy N r img b -
        numerator N r img b ℓ * numerator N r img b ℓ / variantEnergy N r img ℓ
     else targetEnergy N r img b)
    0

/-- The count of domain blocks `D = (N / (2r))²`. -/
def domainCount (N r : ℕ) : ℕ := (N / (2 * r)) ^ 2

/-- Selected variant for range block `b` (`best = int(np.argmin(errors))` over
all `D·8` variants). -/
def bestIndex (N r : ℕ) (img : Img) (b : ℕ) : ℕ :=
  argminFirst (errorTable N r img b) (domainCount N r * 8)

/-- The codebook entry the encoder emits for range block `b`:
`(best // 8, best % 8, contrast[best], target_mean - contrast[best] * variant_mean[best])`. -/
def encodeBlock (N r : ℕ) (img : Img) (b : ℕ) : CodebookEntry :=
  { domain := bestIndex N r img b / 8
    sym := bestIndex N r img b % 8
    contrast := contrastTable N r img b (bestIndex N r img b)
    offset := targetMean N r img b -
      contrastTable N r img b (bestIndex N r img b) *
        variantMean N r img (bestIndex N r img b) }

/-- The full codebook: one entry per range block, raster order, `R = (N/r)²`. -/
def encode (N r : ℕ) (img : Img) : List CodebookEntry :=
  (List.range ((N / r) ^ 2)).map (encodeBlock N r img)

end FC

namespace FD

/-- Embeds `transform` of fractal_decompress.py (textually the same function as
the encoder's): `np.rot90(arr, k=sym % 4)`, then `np.flip(·, axis=-1)` when
`sym >= 4`. -/
def rot90 (n : ℕ) (a : Img) : Img :=
  fun i j => a j (n - 1 - i)

/-- Embeds `np.flip(arr, axis=-1)` on an `n×n` tile (decoder copy). -/
def flipLast (n : ℕ) (a : Img) : Img :=
  fun i j => a i (n - 1 - j)

/-- Embeds `transform(arr, sym)` of fractal_decompress.py. -/
def transform (n : ℕ) (a : Img) (sym : ℕ) : Img :=
  let rotated := (rot90 n)^[sym % 4] a
  if 4 ≤ sym then flipLast n rotated else rotated

/-- Embeds `downscale` of fractal_decompress.py. -/
def downscale (a : Img) : Img :=
  fun i j =>
    (a (2 * i) (2 * j) + a (2 * i) (2 * j + 1) +
     a (2 * i + 1) (2 * j) + a (2 * i + 1) (2 * j + 1)) * (1 / 4)

/-- The domain block addressed by entry field `domain`:
`image[dy : dy+8, dx : dx+8]` with `dy = (domain // domain_blocks_per_side) * 8`
and `dx = (domain % domain_blocks_per_side) * 8`. -/
def domainBlockOf (N r : ℕ) (image : Img) (d : ℕ) : Img :=
  fun a b =>
    image ((d / (N / (2 * r))) * (2 * r) + a) ((d % (N / (2 * r))) * (2 * r) + b)

/-- The tile an entry writes into its range block:
`contrast * downscale(transform(domain_block, sym)) + offset`. -/
def entryValue (N r : ℕ) (image : Img) (e : CodebookEntry) : Img :=
  fun y x =>
    e.contrast * downscale (transform (2 * r) (domainBlockOf N r image e.domain) e.sym) y x
      + e.offset

/-- One body of the decoder's write loop: writes `entryValue` for entry `e` into
the range-block region of block index `b` of the buffer, leaving the rest of the
buffer unchanged.  `ry = (b // range_blocks_per_side) * r`,
`rx = (b % range_blocks_per_side) * r`. -/
def applyEntry (N r : ℕ) (image : Img) (e : CodebookEntry) (b : ℕ) (buf : Img) : Img :=
  fun p q =>
    if (b / (N / r)) * r ≤ p ∧ p < (b / (N / r)) * r + r ∧
       (b % (N / r)) * r ≤ q ∧ q < (b % (N / r)) * r + r then
      entryValue N r image e (p - (b / (N / r)) * r) (q - (b % (N / r)) * r)
    else buf p q

/-- The decoder's write loop after processing entries `0, …, k-1`, starting from
the fresh buffer `buf` (the `np.empty_like` array, whose initial contents are
arbitrary). -/
def iterUpTo (N r : ℕ) (image : Img) (pairs : List CodebookEntry) (buf : Img) : ℕ → Img
  | 0 => buf
  | k + 1 => applyEntry N r image (pairs.getD k ⟨0, 0, 0, 0⟩) k (iterUpTo N r image pairs buf k)

/-- Embeds `iterate(image, pairs)` of fractal_decompress.py: every entry of the
codebook is applied, reading domain blocks from `image` (the old estimate) and
writing into a separate buffer `buf`. -/
def iterate (N r : ℕ) (image : Img) (pairs : List CodebookEntry) (buf : Img) : Img :=
  iterUpTo N r image pairs buf pairs.length

/-- The decoder's main loop: `k` applications of `iterate`, starting from `seed`;
each application writes into a fresh uninitialised buffer, modelled by `junk`. -/
def decodeLoop (N r : ℕ) (pairs : List CodebookEntry) (seed junk : Img) : ℕ → Img
  | 0 => seed
  | k + 1 => iterate N r (decodeLoop N r pairs seed junk k) pairs junk

/-- Embeds `np.clip(x, 0.0, 255.0)` on one sample. -/
def clampQ (x : ℚ) : ℚ := min (max x 0) 255

/-- Embeds `.astype(np.uint8)` on one (clipped) sample: a C-style cast, i.e.
truncation toward zero followed by reduction modulo 256. -/
def toUint8 (x : ℚ) : ℕ := (Int.tdiv x.num (x.den : ℤ)).toNat % 256

/-- Embeds the decoder's output conversion
`np.clip(image, 0.0, 255.0).astype(np.uint8)`, per pixel. -/
def emit (image : Img) (p q : ℕ) : ℕ := toUint8 (clampQ (image p q))

/-- Modelled from the spec: the spec's emission rule, pixel clamped to the valid
range and then rounded to the nearest integer; stated only to be compared with
the `emit` of the source. -/
def emitRoundedSpec (image : Img) (p q : ℕ) : ℤ := round (clampQ (image p q))

end FD

/-! Concrete instances used in the later theorems. -/

/-- A 16×16 image whose domain block 0 (rows and columns 0–7) is all 128 and
whose remaining area — in particular range block 15 — is all 200. -/
def degImg : Img := fun i j => if i < 8 ∧ j < 8 then 128 else 200

/-- A full-count codebook for the source's 512/4 configuration, all entries
offset-only with offset 3/4. -/
def cbOffset34 : List CodebookEntry := List.replicate ((512 / 4) ^ 2) ⟨0, 0, 0, 3 / 4⟩

/-- A full-count codebook for the source's 512/4 configuration, all entries
with contrast 2 and offset 0 (an expansive, non-contractive map). -/
def cbContrast2 : List CodebookEntry := List.replicate ((512 / 4) ^ 2) ⟨0, 0, 2, 0⟩

/-! Helper lemmas about the embedded operations. -/

theorem argminFirst_lt (f : ℕ → ℚ) (n : ℕ) (hn : 0 < n) : argminFirst f n < n := by
  induction n with
  | zero => exact absurd hn (lt_irrefl 0)
  | succ k ih =>
    rcases Nat.eq_zero_or_pos k with hk | hk
    · subst hk
      simp [argminFirst]
    · simp only [argminFirst]
      split
      · exact Nat.lt_succ_self k
      · exact Nat.lt_succ_of_lt (ih hk)

theorem argminFirst_min (f : ℕ → ℚ) (n : ℕ) :
    ∀ i < n, f (argminFirst f n) ≤ f i := by
  induction n with
  | zero => intro i hi; exact absurd hi (Nat.not_lt_zero i)
  | succ k ih =>
    intro i hi
    simp only [argminFirst]
    rcases Nat.lt_succ_iff_lt_or_eq.mp hi with hik | hik
    · split
      · next h => exact le_of_lt (lt_of_lt_of_le h (ih i hik))
      · exact ih i hik
    · subst hik
      split
      · exact le_refl _
      · next h => exact le_of_not_lt h

theorem argminFirst_strict (f : ℕ → ℚ) (n : ℕ) :
    ∀ i < argminFirst f n, f (argminFirst f n) < f i := by
  induction n with
  | zero => intro i hi; simp [argminFirst] at hi
  | succ k ih =>
    intro i hi
    simp only [argminFirst] at hi ⊢
    split
    · next h =>
      split at hi
      · exact lt_of_lt_of_le h (argminFirst_min f k i hi)
      · exact absurd hi (by simp_all)
    · next h =>
      split at hi
      · exact absurd hi (by simp_all)
      · exact ih i hi

theorem argminFirst_of_const (f : ℕ → ℚ) (n : ℕ)
    (h : ∀ i < n, f i = f 0) : argminFirst f n = 0 := by
  induction n with
  | zero => rfl
  | succ k ih =>
    have hk : argminFirst f k = 0 := ih fun i hi => h i (Nat.lt_succ_of_lt hi)
    simp only [argminFirst, hk]
    rcases Nat.eq_zero_or_pos k with h0 | h0
    · subst h0; simp
    · rw [h k (Nat.lt_succ_self k)]
      simp

/-- The decoder's `transform` and the encoder's `transform` are the same
function, textually duplicated between the two files. -/
theorem transform_shared : FD.transform = FC.transform := rfl

/-- The decoder's `downscale` and the encoder's `downscale` are the same
function, textually duplicated between the two files. -/
theorem downscale_shared : FD.downscale = FC.downscale := rfl

theorem rot90_iter_index (n : ℕ) (hn : 0 < n) (k : ℕ) :
    ∀ i j, i < n → j < n →
      ∃ a b, a < n ∧ b < n ∧ ∀ t : Img, (FD.rot90 n)^[k] t i j = t a b := by
  induction k with
  | zero => intro i j hi hj; exact ⟨i, j, hi, hj, fun t => rfl⟩
  | succ m ih =>
    intro i j hi hj
    obtain ⟨a, b, ha, hb, hab⟩ := ih i j hi hj
    have ha2 : n - 1 - a < n := lt_of_le_of_lt (Nat.sub_le _ _) (Nat.sub_lt hn one_pos)
    refine ⟨b, n - 1 - a, hb, ha2, fun t => ?_⟩
    rw [Function.iterate_succ_apply]
    exact hab (FD.rot90 n t)

theorem transform_index (n : ℕ) (hn : 0 < n) (sym : ℕ) :
    ∀ i j, i < n → j < n →
      ∃ a b, a < n ∧ b < n ∧ ∀ t : Img, FD.transform n t sym i j = t a b := by
  intro i j hi hj
  by_cases h4 : 4 ≤ sym
  · have hj2 : n - 1 - j < n := lt_of_le_of_lt (Nat.sub_le _ _) (Nat.sub_lt hn one_pos)
    obtain ⟨a, b, ha, hb, hab⟩ := rot90_iter_index n hn (sym % 4) i (n - 1 - j) hi hj2
    refine ⟨a, b, ha, hb, fun t => ?_⟩
    simp only [FD.transform, h4, if_true]
    exact hab t
  · obtain ⟨a, b, ha, hb, hab⟩ := rot90_iter_index n hn (sym % 4) i j hi hj
    refine ⟨a, b, ha, hb, fun t => ?_⟩
    simp only [FD.transform, h4, if_false]
    exact hab t

/-- Pointwise-equal tiles on `[0, 2r)²` have equal isometry-downsample variants
on `[0, r)²`. -/
theorem down_trans_congr (r : ℕ) (sym : ℕ) (t1 t2 : Img)
    (h : ∀ a b, a < 2 * r → b < 2 * r → t1 a b = t2 a b)
    (y x : ℕ) (hy : y < r) (hx : x < r) :
    FD.downscale (FD.transform (2 * r) t1 sym) y x =
      FD.downscale (FD.transform (2 * r) t2 sym) y x := by
  have hn : 0 < 2 * r := by omega
  have key : ∀ i j, i < 2 * r → j < 2 * r →
      FD.transform (2 * r) t1 sym i j = FD.transform (2 * r) t2 sym i j := by
    intro i j hi hj
    obtain ⟨a, b, ha, hb, hab⟩ := transform_index (2 * r) hn sym i j hi hj
    rw [hab t1, hab t2]
    exact h a b ha hb
  simp only [FD.downscale]
  rw [key (2 * y) (2 * x) (by omega) (by omega),
    key (2 * y) (2 * x + 1) (by omega) (by omega),
    key (2 * y + 1) (2 * x) (by omega) (by omega),
    key (2 * y + 1) (2 * x + 1) (by omega) (by omega)]

/-- A 2×2 box-downsampled isometry variant of a tile that is constant on
`[0, 2r)²` is constant on `[0, r)²`. -/
theorem down_trans_const (r : ℕ) (sym : ℕ) (t : Img) (c : ℚ)
    (h : ∀ a b, a < 2 * r → b < 2 * r → t a b = c)
    (y x : ℕ) (hy : y < r) (hx : x < r) :
    FD.downscale (FD.transform (2 * r) t sym) y x = c := by
  have hn : 0 < 2 * r := by omega
  have key : ∀ i j, i < 2 * r → j < 2 * r → FD.transform (2 * r) t sym i j = c := by
    intro i j hi hj
    obtain ⟨a, b, ha, hb, hab⟩ := transform_index (2 * r) hn sym i j hi hj
    rw [hab t]
    exact h a b ha hb
  simp only [FD.downscale]
  rw [key (2 * y) (2 * x) (by omega) (by omega),
    key (2 * y) (2 * x + 1) (by omega) (by omega),
    key (2 * y + 1) (2 * x) (by omega) (by omega),
    key (2 * y + 1) (2 * x + 1) (by omega) (by omega)]
  ring

/-- Bound on the difference of downsampled isometry variants of two tiles that
are pointwise within `M` of each other on `[0, 2r)²`. -/
theorem down_trans_diff (r : ℕ) (sym : ℕ) (t1 t2 : Img) (M : ℚ)
    (h : ∀ a b, a < 2 * r → b < 2 * r → |t1 a b - t2 a b| ≤ M)
    (y x : ℕ) (hy : y < r) (hx : x < r) :
    |FD.downscale (FD.transform (2 * r) t1 sym) y x -
      FD.downscale (FD.transform (2 * r) t2 sym) y x| ≤ M := by
  have hn : 0 < 2 * r := by omega
  have key : ∀ i j, i < 2 * r → j < 2 * r →
      |FD.transform (2 * r) t1 sym i j - FD.transform (2 * r) t2 sym i j| ≤ M := by
    intro i j hi hj
    obtain ⟨a, b, ha, hb, hab⟩ := transform_index (2 * r) hn sym i j hi hj
    rw [hab t1, hab t2]
    exact h a b ha hb
  have k1 := key (2 * y) (2 * x) (by omega) (by omega)
  have k2 := key (2 * y) (2 * x + 1) (by omega) (by omega)
  have k3 := key (2 * y + 1) (2 * x) (by omega) (by omega)
  have k4 := key (2 * y + 1) (2 * x + 1) (by omega) (by omega)
  simp only [FD.downscale]
  set A1 := FD.transform (2 * r) t1 sym with hA1
  set A2 := FD.transform (2 * r) t2 sym with hA2
  have expand :
      (A1 (2*y) (2*x) + A1 (2*y) (2*x+1) + A1 (2*y+1) (2*x) + A1 (2*y+1) (2*x+1)) * (1/4) -
      (A2 (2*y) (2*x) + A2 (2*y) (2*x+1) + A2 (2*y+1) (2*x) + A2 (2*y+1) (2*x+1)) * (1/4) =
      ((A1 (2*y) (2*x) - A2 (2*y) (2*x)) + (A1 (2*y) (2*x+1) - A2 (2*y) (2*x+1)) +
       (A1 (2*y+1) (2*x) - A2 (2*y+1) (2*x)) +
       (A1 (2*y+1) (2*x+1) - A2 (2*y+1) (2*x+1))) * (1/4) := by ring
  rw [expand]
  rw [abs_mul]
  have habs : |((1:ℚ)/4)| = 1/4 := by norm_num
  rw [habs]
  have hsum : |(A1 (2*y) (2*x) - A2 (2*y) (2*x)) + (A1 (2*y) (2*x+1) - A2 (2*y) (2*x+1)) +
      (A1 (2*y+1) (2*x) - A2 (2*y+1) (2*x)) + (A1 (2*y+1) (2*x+1) - A2 (2*y+1) (2*x+1))| ≤
      M + M + M + M := by
    calc |(A1 (2*y) (2*x) - A2 (2*y) (2*x)) + (A1 (2*y) (2*x+1) - A2 (2*y) (2*x+1)) +
        (A1 (2*y+1) (2*x) - A2 (2*y+1) (2*x)) + (A1 (2*y+1) (2*x+1) - A2 (2*y+1) (2*x+1))|
        ≤ |(A1 (2*y) (2*x) - A2 (2*y) (2*x)) + (A1 (2*y) (2*x+1) - A2 (2*y) (2*x+1)) +
          (A1 (2*y+1) (2*x) - A2 (2*y+1) (2*x))| + |(A1 (2*y+1) (2*x+1) - A2 (2*y+1) (2*x+1))| :=
        abs_add _ _
      _ ≤ (|(A1 (2*y) (2*x) - A2 (2*y) (2*x)) + (A1 (2*y) (2*x+1) - A2 (2*y) (2*x+1))| +
          |(A1 (2*y+1) (2*x) - A2 (2*y+1) (2*x))|) + |(A1 (2*y+1) (2*x+1) - A2 (2*y+1) (2*x+1))| :=
        add_le_add_right (abs_add _ _) _
      _ ≤ ((|(A1 (2*y) (2*x) - A2 (2*y) (2*x))| + |(A1 (2*y) (2*x+1) - A2 (2*y) (2*x+1))|) +
          |(A1 (2*y+1) (2*x) - A2 (2*y+1) (2*x))|) + |(A1 (2*y+1) (2*x+1) - A2 (2*y+1) (2*x+1))| :=
        add_le_add_right (add_le_add_right (abs_add _ _) _) _
      _ ≤ M + M + M + M := by
        exact add_le_add (add_le_add (add_le_add k1 k2) k3) k4
  calc |(A1 (2*y) (2*x) - A2 (2*y) (2*x)) + (A1 (2*y) (2*x+1) - A2 (2*y) (2*x+1)) +
      (A1 (2*y+1) (2*x) - A2 (2*y+1) (2*x)) + (A1 (2*y+1) (2*x+1) - A2 (2*y+1) (2*x+1))| * (1/4)
      ≤ (M + M + M + M) * (1/4) := by
        apply mul_le_mul_of_nonneg_right hsum
        norm_num
    _ = M := by ring

/-- Membership of a pixel in the range-block region of a block index determines
the block index: the raster regions of distinct block indices are disjoint. -/
theorem region_unique (r rbps : ℕ) (hr : 0 < r) (hrb : 0 < rbps) {i j p q : ℕ}
    (hip : (i / rbps) * r ≤ p ∧ p < (i / rbps) * r + r)
    (hiq : (i % rbps) * r ≤ q ∧ q < (i % rbps) * r + r)
    (hjp : (j / rbps) * r ≤ p ∧ p < (j / rbps) * r + r)
    (hjq : (j % rbps) * r ≤ q ∧ q < (j % rbps) * r + r) : i = j := by
  have h1 : p / r = i / rbps :=
    Nat.div_eq_of_lt_le hip.1 (by rw [Nat.succ_mul]; exact hip.2)
  have h2 : q / r = i % rbps :=
    Nat.div_eq_of_lt_le hiq.1 (by rw [Nat.succ_mul]; exact hiq.2)
  have h3 : p / r = j / rbps :=
    Nat.div_eq_of_lt_le hjp.1 (by rw [Nat.succ_mul]; exact hjp.2)
  have h4 : q / r = j % rbps :=
    Nat.div_eq_of_lt_le hjq.1 (by rw [Nat.succ_mul]; exact hjq.2)
  have hi' : rbps * (i / rbps) + i % rbps = i := Nat.div_add_mod i rbps
  have hj' : rbps * (j / rbps) + j % rbps = j := Nat.div_add_mod j rbps
  have e1 : i / rbps = j / rbps := by omega
  have e2 : i % rbps = j % rbps := by omega
  have : rbps * (i / rbps) + i % rbps = rbps * (j / rbps) + j % rbps := by rw [e1, e2]
  omega

/-- After the write loop has processed entries `0, …, m-1`, the pixels of the
range-block region of any block `i < m` hold the value of entry `i`, computed
from the old estimate `image`: no later entry overwrites them and the initial
buffer contents are gone there. -/
theorem iterUpTo_block (N r : ℕ) (image buf : Img) (pairs : List CodebookEntry)
    (hr : 0 < r) (hrb : 0 < N / r) (i y x : ℕ) (hy : y < r) (hx : x < r) :
    ∀ m, i < m →
      FD.iterUpTo N r image pairs buf m ((i / (N / r)) * r + y) ((i % (N / r)) * r + x) =
        FD.entryValue N r image (pairs.getD i ⟨0, 0, 0, 0⟩) y x := by
  intro m
  induction m with
  | zero => intro h; exact absurd h (Nat.not_lt_zero i)
  | succ k ih =>
    intro him
    simp only [FD.iterUpTo, FD.applyEntry]
    rcases Nat.lt_succ_iff_lt_or_eq.mp him with hik | hik
    · rw [if_neg, ih hik]
      intro hmem
      have hpi : (i / (N / r)) * r ≤ (i / (N / r)) * r + y ∧
          (i / (N / r)) * r + y < (i / (N / r)) * r + r :=
        ⟨Nat.le_add_right _ _, by omega⟩
      have hqi : (i % (N / r)) * r ≤ (i % (N / r)) * r + x ∧
          (i % (N / r)) * r + x < (i % (N / r)) * r + r :=
        ⟨Nat.le_add_right _ _, by omega⟩
      have : i = k :=
        region_unique r (N / r) hr hrb hpi hqi ⟨hmem.1, hmem.2.1⟩ ⟨hmem.2.2.1, hmem.2.2.2⟩
      omega
    · subst hik
      rw [if_pos]
      · congr 1 <;> omega
      · exact ⟨Nat.le_add_right _ _, by omega, Nat.le_add_right _ _, by omega⟩

/-- The raster block index covering pixel `(p, q)`, for `p, q < N`:
`(p / r) * (N / r) + q / r`, with its basic properties. -/
theorem cover_block (N r p q : ℕ) (hr : 0 < r) (hdvd : r ∣ N)
    (hp : p < N) (hq : q < N) :
    (p / r) * (N / r) + q / r < (N / r) ^ 2 ∧
    ((p / r) * (N / r) + q / r) / (N / r) = p / r ∧
    ((p / r) * (N / r) + q / r) % (N / r) = q / r := by
  have hpr : p / r < N / r := Nat.div_lt_div_of_lt_of_dvd hdvd hp
  have hqr : q / r < N / r := Nat.div_lt_div_of_lt_of_dvd hdvd hq
  have hrb : 0 < N / r := lt_of_le_of_lt (Nat.zero_le _) hqr
  refine ⟨?_, ?_, ?_⟩
  · calc (p / r) * (N / r) + q / r < (p / r) * (N / r) + N / r := by omega
      _ = (p / r + 1) * (N / r) := by ring
      _ ≤ (N / r) * (N / r) := Nat.mul_le_mul_right _ (by omega)
      _ = (N / r) ^ 2 := (sq (N / r)).symm
  · rw [Nat.add_comm, Nat.add_mul_div_right _ _ hrb, Nat.div_eq_of_lt hqr, Nat.zero_add]
  · rw [Nat.add_comm, Nat.add_mul_mod_self_right, Nat.mod_eq_of_lt hqr]

/-- Value of one decoder iteration at any in-image pixel `(p, q)`: the value of
the codebook entry of the unique range block containing `(p, q)`, computed from
the old estimate. -/
theorem iterate_pixel (N r : ℕ) (image buf : Img) (pairs : List CodebookEntry)
    (hr : 0 < r) (hdvd : r ∣ N) (hlen : pairs.length = (N / r) ^ 2)
    (p q : ℕ) (hp : p < N) (hq : q < N) :
    FD.iterate N r image pairs buf p q =
      FD.entryValue N r image
        (pairs.getD ((p / r) * (N / r) + q / r) ⟨0, 0, 0, 0⟩) (p % r) (q % r) := by
  obtain ⟨hi, hdiv, hmod⟩ := cover_block N r p q hr hdvd hp hq
  have hrb : 0 < N / r := by
    rcases Nat.eq_zero_or_pos (N / r) with h0 | h0
    · rw [h0] at hi; simp at hi
    · exact h0
  have hy : p % r < r := Nat.mod_lt _ hr
  have hx : q % r < r := Nat.mod_lt _ hr
  have := iterUpTo_block N r image buf pairs hr hrb
    ((p / r) * (N / r) + q / r) (p % r) (q % r) hy hx pairs.length
    (by rw [hlen]; exact hi)
  rw [hdiv, hmod] at this
  have hp' : p / r * r + p % r = p := by
    rw [Nat.mul_comm (p / r) r]; exact Nat.div_add_mod p r
  have hq' : q / r * r + q % r = q := by
    rw [Nat.mul_comm (q / r) r]; exact Nat.div_add_mod q r
  rw [hp', hq'] at this
  exact this

theorem domain_read_lt (N r d a : ℕ) (hdvd : 2 * r ∣ N) (hd : d < (N / (2 * r)) ^ 2)
    (ha : a < 2 * r) :
    (d / (N / (2 * r))) * (2 * r) + a < N ∧ (d % (N / (2 * r))) * (2 * r) + a < N := by
  have hm : 0 < N / (2 * r) := by
    rcases Nat.eq_zero_or_pos (N / (2 * r)) with h0 | h0
    · rw [h0] at hd; simp at hd
    · exact h0
  have hv : d / (N / (2 * r)) < N / (2 * r) := by
    rw [Nat.div_lt_iff_lt_mul hm]
    rw [sq] at hd; exact hd
  have hw : d % (N / (2 * r)) < N / (2 * r) := Nat.mod_lt _ hm
  have hNs : N / (2 * r) * (2 * r) = N := Nat.div_mul_cancel hdvd
  constructor
  · calc (d / (N / (2 * r))) * (2 * r) + a < (d / (N / (2 * r))) * (2 * r) + 2 * r := by omega
      _ = (d / (N / (2 * r)) + 1) * (2 * r) := by ring
      _ ≤ (N / (2 * r)) * (2 * r) := Nat.mul_le_mul_right _ (by omega)
      _ = N := hNs
  · calc (d % (N / (2 * r))) * (2 * r) + a < (d % (N / (2 * r))) * (2 * r) + 2 * r := by omega
      _ = (d % (N / (2 * r)) + 1) * (2 * r) := by ring
      _ ≤ (N / (2 * r)) * (2 * r) := Nat.mul_le_mul_right _ (by omega)
      _ = N := hNs

/-- The value an entry writes, when the old estimate is constant `c` on the
image grid and the entry addresses a valid domain block. -/
theorem entryValue_const (N r : ℕ) (image : Img) (c : ℚ) (hdvd : 2 * r ∣ N)
    (hI : ∀ p q, p < N → q < N → image p q = c)
    (e : CodebookEntry) (hd : e.domain < (N / (2 * r)) ^ 2)
    (y x : ℕ) (hy : y < r) (hx : x < r) :
    FD.entryValue N r image e y x = e.contrast * c + e.offset := by
  have h := down_trans_const r e.sym (FD.domainBlockOf N r image e.domain) c ?_ y x hy hx
  · simp only [FD.entryValue]
    rw [h]
  · intro a b ha hb
    simp only [FD.domainBlockOf]
    obtain ⟨h1, _⟩ := domain_read_lt N r e.domain a hdvd hd ha
    obtain ⟨_, h2⟩ := domain_read_lt N r e.domain b hdvd hd hb
    exact hI _ _ h1 h2

/-- The value an entry with contrast `0` writes is its offset, whatever the old
estimate holds. -/
theorem entryValue_zero_contrast (N r : ℕ) (image : Img) (e : CodebookEntry)
    (hc : e.contrast = 0) (y x : ℕ) :
    FD.entryValue N r image e y x = e.offset := by
  simp [FD.entryValue, hc]

/-- Lipschitz bound for the value an entry writes, in the contrast magnitude. -/
theorem entryValue_diff (N r : ℕ) (I J : Img) (M : ℚ) (hdvd : 2 * r ∣ N)
    (hIJ : ∀ p q, p < N → q < N → |I p q - J p q| ≤ M)
    (e : CodebookEntry) (hd : e.domain < (N / (2 * r)) ^ 2)
    (y x : ℕ) (hy : y < r) (hx : x < r) :
    |FD.entryValue N r I e y x - FD.entryValue N r J e y x| ≤ |e.contrast| * M := by
  have hdown := down_trans_diff r e.sym (FD.domainBlockOf N r I e.domain)
    (FD.domainBlockOf N r J e.domain) M ?_ y x hy hx
  · simp only [FD.entryValue]
    have expand :
        e.contrast * FD.downscale (FD.transform (2 * r) (FD.domainBlockOf N r I e.domain) e.sym) y x
            + e.offset -
          (e.contrast * FD.downscale (FD.transform (2 * r) (FD.domainBlockOf N r J e.domain) e.sym) y x
            + e.offset) =
        e.contrast *
          (FD.downscale (FD.transform (2 * r) (FD.domainBlockOf N r I e.domain) e.sym) y x -
           FD.downscale (FD.transform (2 * r) (FD.domainBlockOf N r J e.domain) e.sym) y x) := by
      ring
    rw [expand, abs_mul]
    exact mul_le_mul_of_nonneg_left hdown (abs_nonneg _)
  · intro a b ha hb
    simp only [FD.domainBlockOf]
    obtain ⟨h1, _⟩ := domain_read_lt N r e.domain a hdvd hd ha
    obtain ⟨_, h2⟩ := domain_read_lt N r e.domain b hdvd hd hb
    exact hIJ _ _ h1 h2

theorem r_dvd_of_two_r_dvd {r N : ℕ} (h : 2 * r ∣ N) : r ∣ N :=
  dvd_trans (Dvd.intro_left 2 rfl) h

theorem getD_mem_of_lt {l : List CodebookEntry} {i : ℕ} (hi : i < l.length) :
    l.getD i ⟨0, 0, 0, 0⟩ ∈ l := by
  rw [List.getD_eq_getElem l _ hi]
  exact List.getElem_mem hi

/-- One decoder iteration on a constant estimate, for a codebook made of one
repeated entry addressing domain block 0 with contrast `α` and offset `β`. -/
theorem iterate_const (N r : ℕ) (hr : 0 < r) (hN : 0 < N) (hdvd : 2 * r ∣ N)
    (pairs : List CodebookEntry) (hlen : pairs.length = (N / r) ^ 2)
    (α β : ℚ) (hent : ∀ e ∈ pairs, e = ⟨0, 0, α, β⟩)
    (I buf : Img) (c : ℚ) (hI : ∀ p q, p < N → q < N → I p q = c) :
    ∀ p q, p < N → q < N → FD.iterate N r I pairs buf p q = α * c + β := by
  intro p q hp hq
  rw [iterate_pixel N r I buf pairs hr (r_dvd_of_two_r_dvd hdvd) hlen p q hp hq]
  obtain ⟨hi, _, _⟩ := cover_block N r p q hr (r_dvd_of_two_r_dvd hdvd) hp hq
  have hilen : (p / r) * (N / r) + q / r < pairs.length := by rw [hlen]; exact hi
  have he : pairs.getD ((p / r) * (N / r) + q / r) ⟨0, 0, 0, 0⟩ = ⟨0, 0, α, β⟩ :=
    hent _ (getD_mem_of_lt hilen)
  rw [he]
  have hd0 : (0 : ℕ) < (N / (2 * r)) ^ 2 := by
    have h2r : 2 * r ≤ N := Nat.le_of_dvd hN hdvd
    have : 0 < N / (2 * r) := Nat.div_pos h2r (by omega)
    positivity
  have := entryValue_const N r I c hdvd hI ⟨0, 0, α, β⟩ hd0
    (p % r) (q % r) (Nat.mod_lt _ hr) (Nat.mod_lt _ hr)
  exact this

/-- One decoder iteration contracts the sup-distance of two estimates by the
largest contrast magnitude of the codebook, here bounded by 1/2. -/
theorem iterate_diff (N r : ℕ) (hr : 0 < r) (hdvd : 2 * r ∣ N)
    (pairs : List CodebookEntry) (hlen : pairs.length = (N / r) ^ 2)
    (hdom : ∀ e ∈ pairs, e.domain < (N / (2 * r)) ^ 2)
    (hcon : ∀ e ∈ pairs, |e.contrast| ≤ 1 / 2)
    (I J buf1 buf2 : Img) (M : ℚ) (hM : 0 ≤ M)
    (hIJ : ∀ p q, p < N → q < N → |I p q - J p q| ≤ M) :
    ∀ p q, p < N → q < N →
      |FD.iterate N r I pairs buf1 p q - FD.iterate N r J pairs buf2 p q| ≤ 1 / 2 * M := by
  intro p q hp hq
  rw [iterate_pixel N r I buf1 pairs hr (r_dvd_of_two_r_dvd hdvd) hlen p q hp hq,
    iterate_pixel N r J buf2 pairs hr (r_dvd_of_two_r_dvd hdvd) hlen p q hp hq]
  obtain ⟨hi, _, _⟩ := cover_block N r p q hr (r_dvd_of_two_r_dvd hdvd) hp hq
  have hilen : (p / r) * (N / r) + q / r < pairs.length := by rw [hlen]; exact hi
  have hmem := getD_mem_of_lt hilen
  calc |FD.entryValue N r I (pairs.getD ((p / r) * (N / r) + q / r) ⟨0, 0, 0, 0⟩) (p % r) (q % r) -
      FD.entryValue N r J (pairs.getD ((p / r) * (N / r) + q / r) ⟨0, 0, 0, 0⟩) (p % r) (q % r)|
      ≤ |(pairs.getD ((p / r) * (N / r) + q / r) ⟨0, 0, 0, 0⟩).contrast| * M :=
        entryValue_diff N r I J M hdvd hIJ _ (hdom _ hmem) (p % r) (q % r)
          (Nat.mod_lt _ hr) (Nat.mod_lt _ hr)
    _ ≤ 1 / 2 * M := mul_le_mul_of_nonneg_right (hcon _ hmem) hM

/-- After `k` decoder iterations, the sup-distance of two runs from seeds within
`M0` of each other is at most `M0 / 2^k`, for codebooks with all contrast
magnitudes at most 1/2. -/
theorem decodeLoop_diff (N r : ℕ) (hr : 0 < r) (hdvd : 2 * r ∣ N)
    (pairs : List CodebookEntry) (hlen : pairs.length = (N / r) ^ 2)
    (hdom : ∀ e ∈ pairs, e.domain < (N / (2 * r)) ^ 2)
    (hcon : ∀ e ∈ pairs, |e.contrast| ≤ 1 / 2)
    (A B junk1 junk2 : Img) (M0 : ℚ) (hM0 : 0 ≤ M0)
    (hAB : ∀ p q, p < N → q < N → |A p q - B p q| ≤ M0) :
    ∀ k p q, p < N → q < N →
      |FD.decodeLoop N r pairs A junk1 k p q - FD.decodeLoop N r pairs B junk2 k p q| ≤
        M0 / 2 ^ k := by
  intro k
  induction k with
  | zero =>
    intro p q hp hq
    simpa [FD.decodeLoop] using hAB p q hp hq
  | succ m ih =>
    intro p q hp hq
    have step := iterate_diff N r hr hdvd pairs hlen hdom hcon
      (FD.decodeLoop N r pairs A junk1 m) (FD.decodeLoop N r pairs B junk2 m)
      junk1 junk2 (M0 / 2 ^ m) (div_nonneg hM0 (by positivity)) ih p q hp hq
    have : 1 / 2 * (M0 / 2 ^ m) = M0 / 2 ^ (m + 1) := by
      rw [pow_succ]; ring
    rw [this] at step
    exact step

/-- The decoder's output conversion truncates: `emit` equals the floor of the
clamped pixel value (a C cast toward zero equals floor on the clamped,
nonnegative range, and the value fits in a byte so the mod-256 wrap is void). -/
theorem emit_eq_floor_clamp (image : Img) (p q : ℕ) :
    FD.emit image p q = (⌊FD.clampQ (image p q)⌋).toNat := by
  have h0 : 0 ≤ FD.clampQ (image p q) := le_min (le_max_right _ _) (by norm_num)
  have h255 : FD.clampQ (image p q) ≤ 255 := min_le_right _ _
  simp only [FD.emit, FD.toUint8]
  have hnum : 0 ≤ (FD.clampQ (image p q)).num := Rat.num_nonneg.mpr h0
  rw [Int.tdiv_eq_ediv hnum (Int.ofNat_nonneg _), ← Rat.floor_def]
  have hfl : ⌊FD.clampQ (image p q)⌋ ≤ 255 := by
    calc ⌊FD.clampQ (image p q)⌋ ≤ ⌊(255 : ℚ)⌋ := Int.floor_le_floor h255
      _ = 255 := by norm_num
  have : (⌊FD.clampQ (image p q)⌋).toNat < 256 := by omega
  exact Nat.mod_eq_of_lt this

theorem sum_range_double (n : ℕ) (f : ℕ → ℚ) :
    ∑ i ∈ Finset.range (2 * n), f i = ∑ i ∈ Finset.range n, (f (2 * i) + f (2 * i + 1)) := by
  induction n with
  | zero => simp
  | succ m ih =>
    have h2 : 2 * (m + 1) = 2 * m + 1 + 1 := by ring
    rw [h2, Finset.sum_range_succ, Finset.sum_range_succ, ih, Finset.sum_range_succ]
    ring

/-- The 2×2 box filter quarters the total intensity of a `2r×2r` tile. -/
theorem tileSum_downscale (r : ℕ) (t : Img) :
    tileSum r (FC.downscale t) = 1 / 4 * tileSum (2 * r) t := by
  simp only [tileSum, FC.downscale]
  rw [sum_range_double r fun i => ∑ j ∈ Finset.range (2 * r), t i j]
  rw [Finset.mul_sum]
  refine Finset.sum_congr rfl ?_
  intro i _
  rw [sum_range_double r fun j => t (2 * i) j, sum_range_double r fun j => t (2 * i + 1) j,
    ← Finset.sum_add_distrib, Finset.mul_sum]
  refine Finset.sum_congr rfl ?_
  intro j _
  ring

theorem tileSum_rot90 (n : ℕ) (a : Img) :
    tileSum n (FC.rot90 n a) = tileSum n a := by
  simp only [tileSum, FC.rot90]
  rw [Finset.sum_comm]
  refine Finset.sum_congr rfl ?_
  intro j _
  exact Finset.sum_range_reflect (fun i => a j i) n

theorem tileSum_flipLast (n : ℕ) (a : Img) :
    tileSum n (FC.flipLast n a) = tileSum n a := by
  simp only [tileSum, FC.flipLast]
  refine Finset.sum_congr rfl ?_
  intro i _
  exact Finset.sum_range_reflect (fun j => a i j) n

theorem tileSum_rot90_iter (n k : ℕ) :
    ∀ a : Img, tileSum n ((FC.rot90 n)^[k] a) = tileSum n a := by
  induction k with
  | zero => intro a; rfl
  | succ m ih =>
    intro a
    rw [Function.iterate_succ_apply, ih (FC.rot90 n a), tileSum_rot90]

/-- Every isometry of the transform set preserves the total intensity of a tile. -/
theorem tileSum_transform (n : ℕ) (a : Img) (sym : ℕ) :
    tileSum n (FC.transform n a sym) = tileSum n a := by
  simp only [FC.transform]
  by_cases h4 : 4 ≤ sym
  · simp only [h4, if_true]
    rw [tileSum_flipLast, tileSum_rot90_iter]
  · simp only [h4, if_false]
    rw [tileSum_rot90_iter]

/-- A tile that is constant on the summed region has total `r² · c`. -/
theorem tileSum_const (r : ℕ) (t : Img) (c : ℚ)
    (h : ∀ i j, i < r → j < r → t i j = c) :
    tileSum r t = (r : ℚ) * ((r : ℚ) * c) := by
  simp only [tileSum]
  rw [Finset.sum_congr rfl fun i hi =>
    Finset.sum_congr rfl fun j hj =>
      h i j (Finset.mem_range.mp hi) (Finset.mem_range.mp hj)]
  rw [Finset.sum_const, Finset.card_range, nsmul_eq_mul, Finset.sum_const, Finset.card_range,
    nsmul_eq_mul]

/-- A tile that is constant on the averaged region has mean `c` (for `r > 0`). -/
theorem tileMean_const (r : ℕ) (hr : 0 < r) (t : Img) (c : ℚ)
    (h : ∀ i j, i < r → j < r → t i j = c) :
    tileMean r t = c := by
  simp only [tileMean, tileSum_const r t c h]
  have hcast : ((r * r : ℕ) : ℚ) = (r : ℚ) * (r : ℚ) := by push_cast; ring
  have h0 : (r : ℚ) ≠ 0 := Nat.cast_ne_zero.mpr (Nat.pos_iff_ne_zero.mp hr)
  rw [hcast]
  field_simp
  ring

/-- A centered square sum over a constant tile vanishes. -/
theorem centered_sum_zero (r : ℕ) (t s : Img) (c m : ℚ)
    (ht : ∀ i j, i < r → j < r → t i j = c) (hm : c = m)
    (hs : ∀ i j, i < r → j < r → s i j = c) :
    (∑ i ∈ Finset.range r, ∑ j ∈ Finset.range r, (t i j - m) * (s i j - m)) = 0 := by
  refine Finset.sum_eq_zero ?_
  intro i hi
  refine Finset.sum_eq_zero ?_
  intro j hj
  rw [ht i j (Finset.mem_range.mp hi) (Finset.mem_range.mp hj),
    hs i j (Finset.mem_range.mp hi) (Finset.mem_range.mp hj), ← hm]
  ring

theorem targetEnergy_nonneg (N r : ℕ) (img : Img) (b : ℕ) :
    0 ≤ FC.targetEnergy N r img b :=
  Finset.sum_nonneg fun _ _ => Finset.sum_nonneg fun _ _ => mul_self_nonneg _

/-- Isometry followed by the box filter preserves the mean of a `2r×2r` tile. -/
theorem tileMean_downscale_transform (r sym : ℕ) (t : Img) :
    tileMean r (FC.downscale (FC.transform (2 * r) t sym)) = tileMean (2 * r) t := by
  simp only [tileMean]
  rw [tileSum_downscale, tileSum_transform]
  rcases Nat.eq_zero_or_pos r with h0 | h0
  · subst h0
    simp [tileSum]
  · have h0q : (r : ℚ) ≠ 0 := Nat.cast_ne_zero.mpr (Nat.pos_iff_ne_zero.mp h0)
    have hc1 : ((r * r : ℕ) : ℚ) = (r : ℚ) * (r : ℚ) := by push_cast; ring
    have hc2 : ((2 * r * (2 * r) : ℕ) : ℚ) = 4 * ((r : ℚ) * (r : ℚ)) := by push_cast; ring
    rw [hc1, hc2]
    field_simp

/-- The decoder's estimate after at least one iteration of an offset-only
codebook (all entries with contrast 0 and offset `β`) is `β` at every in-image
pixel, whatever the seed. -/
theorem decodeLoop_offset_only (N r : ℕ) (hr : 0 < r) (hdvd : r ∣ N)
    (pairs : List CodebookEntry) (hlen : pairs.length = (N / r) ^ 2) (β : ℚ)
    (hent : ∀ e ∈ pairs, e = ⟨0, 0, 0, β⟩) (seed junk : Img) (k : ℕ) (hk : 0 < k) :
    ∀ p q, p < N → q < N → FD.decodeLoop N r pairs seed junk k p q = β := by
  rcases k with _ | m
  · exact absurd hk (lt_irrefl 0)
  intro p q hp hq
  simp only [FD.decodeLoop]
  rw [iterate_pixel N r _ junk pairs hr hdvd hlen p q hp hq]
  obtain ⟨hi, _, _⟩ := cover_block N r p q hr hdvd hp hq
  have hilen : (p / r) * (N / r) + q / r < pairs.length := by rw [hlen]; exact hi
  have he : pairs.getD ((p / r) * (N / r) + q / r) ⟨0, 0, 0, 0⟩ = ⟨0, 0, 0, β⟩ :=
    hent _ (getD_mem_of_lt hilen)
  rw [he, entryValue_zero_contrast N r _ _ rfl]

/-- The decoder's estimate after `k` iterations of a pure-contrast codebook
(all entries `⟨0, 0, α, 0⟩`) on a constant seed `c` is `αᵏ·c` at every in-image
pixel. -/
theorem decodeLoop_geom (N r : ℕ) (hr : 0 < r) (hN : 0 < N) (hdvd : 2 * r ∣ N)
    (pairs : List CodebookEntry) (hlen : pairs.length = (N / r) ^ 2) (α : ℚ)
    (hent : ∀ e ∈ pairs, e = ⟨0, 0, α, 0⟩) (c : ℚ) (seed junk : Img)
    (hseed : ∀ p q, p < N → q < N → seed p q = c) :
    ∀ k p q, p < N → q < N → FD.decodeLoop N r pairs seed junk k p q = α ^ k * c := by
  intro k
  induction k with
  | zero =>
    intro p q hp hq
    rw [pow_zero, one_mul]
    exact hseed p q hp hq
  | succ m ih =>
    intro p q hp hq
    simp only [FD.decodeLoop]
    rw [iterate_const N r hr hN hdvd pairs hlen α 0 hent _ junk (α ^ m * c) ih p q hp hq]
    ring

/-! Claim theorems. -/

/-- C1: for every range block `b` and variant `ℓ` of the precomputed table, the
fitted contrast is `C_v / E_v` when the centered energy exceeds `1e-6` and `0`
otherwise; the squared error is `max 0 (E_t - α_v·C_v)` when the energy exceeds
`1e-6` and `E_t` otherwise; and the emitted offset is `m_t - α_{v*}·m_{v*}`. -/
theorem C1_regression_fit (N r : ℕ) (img : Img) (b ℓ : ℕ) :
    FC.contrastTable N r img b ℓ =
      (if FC.epsilon < FC.variantEnergy N r img ℓ then
        FC.numerator N r img b ℓ / FC.variantEnergy N r img ℓ else 0) ∧
    FC.errorTable N r img b ℓ =
      (if FC.epsilon < FC.variantEnergy N r img ℓ then
        max 0 (FC.targetEnergy N r img b -
          FC.contrastTable N r img b ℓ * FC.numerator N r img b ℓ)
       else FC.targetEnergy N r img b) ∧
    (FC.encodeBlock N r img b).offset =
      FC.targetMean N r img b -
        FC.contrastTable N r img b (FC.bestIndex N r img b) *
          FC.variantMean N r img (FC.bestIndex N r img b) := by
  refine ⟨rfl, ?_, rfl⟩
  by_cases h : FC.epsilon < FC.variantEnergy N r img ℓ
  · simp only [FC.errorTable, FC.contrastTable, h, if_true]
    rw [max_comm]
    congr 1
    ring
  · simp only [FC.errorTable, h, if_false]
    exact max_eq_left (targetEnergy_nonneg N r img b)

/-- C2: one decoder iteration writes, into the range block of index `i`, the
value `contrast · downsample(isometry(domain block of the old estimate)) +
offset` of codebook entry `i`; every read is from the old estimate `image`,
never from the buffer being written, so the written content is a function of
the old estimate and the codebook only. -/
theorem C2_iterate_block_semantics (N r : ℕ) (image buf : Img)
    (pairs : List CodebookEntry) (i y x : ℕ)
    (hi : i < pairs.length) (hr : 0 < r) (hrb : 0 < N / r) (hy : y < r) (hx : x < r) :
    FD.iterate N r image pairs buf ((i / (N / r)) * r + y) ((i % (N / r)) * r + x) =
      FD.entryValue N r image (pairs.getD i ⟨0, 0, 0, 0⟩) y x :=
  iterUpTo_block N r image buf pairs hr hrb i y x hy hx pairs.length hi

/-- Witness for C2 at a concrete instance (N = 8, r = 2, a one-entry prefix of
the codebook, block 0, pixel offset (1, 1)). -/
theorem C2_iterate_block_semantics_witness :
    FD.iterate 8 2 (fun p q => (p : ℚ) + q) [⟨0, 0, 1, 5⟩] (fun _ _ => 0)
        ((0 / (8 / 2)) * 2 + 1) ((0 % (8 / 2)) * 2 + 1) =
      FD.entryValue 8 2 (fun p q => (p : ℚ) + q)
        (([⟨0, 0, 1, 5⟩] : List CodebookEntry).getD 0 ⟨0, 0, 0, 0⟩) 1 1 :=
  C2_iterate_block_semantics 8 2 (fun p q => (p : ℚ) + q) (fun _ _ => 0)
    [⟨0, 0, 1, 5⟩] 0 1 1 (by decide) (by decide) (by decide) (by decide) (by decide)

/-- C3: the encoder selects, over all `D·8` variants (domain outer, symmetry
inner), the variant of minimal squared error; every variant with a smaller
linear index has strictly larger error (first-minimum tie-break); and the
emitted entry is `(v* / 8, v* % 8)`. -/
theorem C3_argmin_selection (N r : ℕ) (img : Img) (b : ℕ)
    (hD : 0 < FC.domainCount N r) :
    FC.bestIndex N r img b < FC.domainCount N r * 8 ∧
    (∀ ℓ < FC.domainCount N r * 8,
      FC.errorTable N r img b (FC.bestIndex N r img b) ≤ FC.errorTable N r img b ℓ) ∧
    (∀ ℓ < FC.bestIndex N r img b,
      FC.errorTable N r img b (FC.bestIndex N r img b) < FC.errorTable N r img b ℓ) ∧
    (FC.encodeBlock N r img b).domain = FC.bestIndex N r img b / 8 ∧
    (FC.encodeBlock N r img b).sym = FC.bestIndex N r img b % 8 :=
  ⟨argminFirst_lt _ _ (Nat.mul_pos hD (by norm_num)),
   argminFirst_min _ _, argminFirst_strict _ _, rfl, rfl⟩

/-- Witness for C3 at a concrete instance (N = 16, r = 4, the zero image,
block 0). -/
theorem C3_argmin_selection_witness :
    FC.bestIndex 16 4 (fun _ _ => 0) 0 < FC.domainCount 16 4 * 8 ∧
    (∀ ℓ < FC.domainCount 16 4 * 8,
      FC.errorTable 16 4 (fun _ _ => 0) 0 (FC.bestIndex 16 4 (fun _ _ => 0) 0) ≤
        FC.errorTable 16 4 (fun _ _ => 0) 0 ℓ) ∧
    (∀ ℓ < FC.bestIndex 16 4 (fun _ _ => 0) 0,
      FC.errorTable 16 4 (fun _ _ => 0) 0 (FC.bestIndex 16 4 (fun _ _ => 0) 0) <
        FC.errorTable 16 4 (fun _ _ => 0) 0 ℓ) ∧
    (FC.encodeBlock 16 4 (fun _ _ => 0) 0).domain = FC.bestIndex 16 4 (fun _ _ => 0) 0 / 8 ∧
    (FC.encodeBlock 16 4 (fun _ _ => 0) 0).sym = FC.bestIndex 16 4 (fun _ _ => 0) 0 % 8 :=
  C3_argmin_selection 16 4 (fun _ _ => 0) 0 (by decide)

/-- C4: contrary to the claim, the decoder performs no record-count validation
at all: no `CodebookFormatError` exists in the code, loading is a plain
`np.load`, and running the decoder on a codebook with the wrong record count
(here: empty, instead of `(512/4)² = 16384` records) silently returns the
uninitialised output buffer after every iteration instead of raising. -/
theorem C4_no_record_count_validation :
    (([] : List CodebookEntry).length ≠ (512 / 4) ^ 2) ∧
    (∀ image junk : Img, FD.iterate 512 4 image [] junk = junk) ∧
    (∀ seed junk : Img, FD.decodeLoop 512 4 [] seed junk 8 = junk) :=
  ⟨by decide, fun _ _ => rfl, fun _ _ => rfl⟩

/-- C5 (amended): each emitted 8-bit sample is the estimate's pixel clamped to
[0, 255] and then truncated to an integer (floor on the clamped, nonnegative
value) — not rounded to the nearest integer. -/
theorem C5_amended_clamp_then_floor (image : Img) (p q : ℕ) :
    FD.emit image p q = (⌊FD.clampQ (image p q)⌋).toNat :=
  emit_eq_floor_clamp image p q

/-- C6 (amended): for every codebook with the full record count, in-range
domain indices and all contrast magnitudes at most 1/2, decoding from the
all-zero and the all-255 seed for 8 iterations yields estimates that differ by
less than one intensity unit at every in-image pixel, for any pair of
uninitialised buffers. -/
theorem C6_amended_seed_independence (N r : ℕ) (pairs : List CodebookEntry)
    (junk1 junk2 : Img) (hr : 0 < r) (hdvd : 2 * r ∣ N)
    (hlen : pairs.length = (N / r) ^ 2)
    (hdom : ∀ e ∈ pairs, e.domain < (N / (2 * r)) ^ 2)
    (hcon : ∀ e ∈ pairs, |e.contrast| ≤ 1 / 2)
    (p q : ℕ) (hp : p < N) (hq : q < N) :
    |FD.decodeLoop N r pairs (fun _ _ => 0) junk1 8 p q -
      FD.decodeLoop N r pairs (fun _ _ => 255) junk2 8 p q| < 1 := by
  have h := decodeLoop_diff N r hr hdvd pairs hlen hdom hcon
    (fun _ _ => 0) (fun _ _ => 255) junk1 junk2 255 (by norm_num)
    (fun u v _ _ => by norm_num) 8 p q hp hq
  calc |FD.decodeLoop N r pairs (fun _ _ => 0) junk1 8 p q -
      FD.decodeLoop N r pairs (fun _ _ => 255) junk2 8 p q| ≤ 255 / 2 ^ 8 := h
    _ < 1 := by norm_num

/-- Witness for C6 (amended) at a concrete instance (N = 8, r = 2, the
16-entry all-zero codebook). -/
theorem C6_amended_seed_independence_witness :
    |FD.decodeLoop 8 2 (List.replicate 16 ⟨0, 0, 0, 0⟩) (fun _ _ => 0) (fun _ _ => 0) 8 0 0 -
      FD.decodeLoop 8 2 (List.replicate 16 ⟨0, 0, 0, 0⟩) (fun _ _ => 255) (fun _ _ => 0) 8 0 0|
      < 1 :=
  C6_amended_seed_independence 8 2 (List.replicate 16 ⟨0, 0, 0, 0⟩)
    (fun _ _ => 0) (fun _ _ => 0) (by decide) (by decide) (by simp)
    (fun e he => by rw [List.eq_of_mem_replicate he]; norm_num)
    (fun e he => by rw [List.eq_of_mem_replicate he]; norm_num)
    0 0 (by decide) (by decide)

/-- C7: the encoder's and the decoder's `transform` and `downscale` are
extensionally (indeed definitionally) the same functions, so the
isometry-then-downsample pipelines of the two components agree on every tile
and symmetry id. -/
theorem C7_shared_isometry_pipeline :
    FC.transform = FD.transform ∧ FC.downscale = FD.downscale ∧
    ∀ (n sym : ℕ) (t : Img) (i j : ℕ),
      FC.downscale (FC.transform n t sym) i j = FD.downscale (FD.transform n t sym) i j :=
  ⟨rfl, rfl, fun _ _ _ _ _ => rfl⟩

/-- C9: every emitted codebook entry has `domain_index < (N/(2r))²` and
`symmetry_id < 8`, hence the decoder's domain-block origin addresses a full
`2r×2r` block inside the `N×N` image, and the range-block write of any block
index below `(N/r)²` stays inside the image. -/
theorem C9_entry_addressing_safe (N r : ℕ) (img : Img) (b : ℕ)
    (hr : 0 < r) (hN : 0 < N) (hdvd : 2 * r ∣ N) (hb : b < (N / r) ^ 2) :
    (FC.encodeBlock N r img b).domain < FC.domainCount N r ∧
    (FC.encodeBlock N r img b).sym < 8 ∧
    ((FC.encodeBlock N r img b).domain / (N / (2 * r))) * (2 * r) + 2 * r ≤ N ∧
    ((FC.encodeBlock N r img b).domain % (N / (2 * r))) * (2 * r) + 2 * r ≤ N ∧
    (b / (N / r)) * r + r ≤ N ∧
    (b % (N / r)) * r + r ≤ N := by
  have h2r : 2 * r ≤ N := Nat.le_of_dvd hN hdvd
  have hdb : 0 < N / (2 * r) := Nat.div_pos h2r (by omega)
  have hD : 0 < FC.domainCount N r := by
    simp only [FC.domainCount]
    positivity
  have hbest : FC.bestIndex N r img b < FC.domainCount N r * 8 :=
    argminFirst_lt _ _ (Nat.mul_pos hD (by norm_num))
  have hdom : (FC.encodeBlock N r img b).domain < FC.domainCount N r := by
    show FC.bestIndex N r img b / 8 < FC.domainCount N r
    rw [Nat.div_lt_iff_lt_mul (by norm_num : (0:ℕ) < 8)]
    exact hbest
  have hdomsq : (FC.encodeBlock N r img b).domain < (N / (2 * r)) ^ 2 := hdom
  obtain ⟨hdy, hdx⟩ :=
    domain_read_lt N r (FC.encodeBlock N r img b).domain (2 * r - 1) hdvd hdomsq (by omega)
  have hrbN : (N / r) * r = N := Nat.div_mul_cancel (r_dvd_of_two_r_dvd hdvd)
  have hNr : 0 < N / r := Nat.div_pos (by omega) hr
  have hbb : b / (N / r) < N / r := by
    rw [Nat.div_lt_iff_lt_mul hNr]
    · rw [sq] at hb; exact hb
  have hbm : b % (N / r) < N / r := Nat.mod_lt _ hNr
  refine ⟨hdom, Nat.mod_lt _ (by norm_num), by omega, by omega, ?_, ?_⟩
  · calc (b / (N / r)) * r + r = (b / (N / r) + 1) * r := by ring
      _ ≤ (N / r) * r := Nat.mul_le_mul_right _ (by omega)
      _ = N := hrbN
  · calc (b % (N / r)) * r + r = (b % (N / r) + 1) * r := by ring
      _ ≤ (N / r) * r := Nat.mul_le_mul_right _ (by omega)
      _ = N := hrbN

/-- Witness for C9 at a concrete instance (N = 16, r = 4, block 5). -/
theorem C9_entry_addressing_safe_witness :
    (FC.encodeBlock 16 4 (fun _ _ => 3) 5).domain < FC.domainCount 16 4 ∧
    (FC.encodeBlock 16 4 (fun _ _ => 3) 5).sym < 8 ∧
    ((FC.encodeBlock 16 4 (fun _ _ => 3) 5).domain / (16 / (2 * 4))) * (2 * 4) + 2 * 4 ≤ 16 ∧
    ((FC.encodeBlock 16 4 (fun _ _ => 3) 5).domain % (16 / (2 * 4))) * (2 * 4) + 2 * 4 ≤ 16 ∧
    (5 / (16 / 4)) * 4 + 4 ≤ 16 ∧
    (5 % (16 / 4)) * 4 + 4 ≤ 16 :=
  C9_entry_addressing_safe 16 4 (fun _ _ => 3) 5 (by decide) (by decide) (by decide) (by decide)

/-- C10: for every tile of even side `2r` and every symmetry id, the mean of
`downsample(transform(tile, sym))` equals the mean of the tile; consequently
the 8 variants of one domain block all share the same mean. -/
theorem C10_variant_mean_invariance (r sym : ℕ) (t : Img) :
    tileMean r (FC.downscale (FC.transform (2 * r) t sym)) = tileMean (2 * r) t ∧
    ∀ (N : ℕ) (img : Img) (d s1 s2 : ℕ),
      FC.variantMean N r img (d * 8 + s1 % 8) = FC.variantMean N r img (d * 8 + s2 % 8) := by
  refine ⟨tileMean_downscale_transform r sym t, ?_⟩
  intro N img d s1 s2
  have hdiv : ∀ s : ℕ, (d * 8 + s % 8) / 8 = d := by
    intro s
    rw [Nat.add_comm, Nat.add_mul_div_right _ _ (by norm_num : (0:ℕ) < 8),
      Nat.div_eq_of_lt (Nat.mod_lt _ (by norm_num)), Nat.zero_add]
  have hmod : ∀ s : ℕ, (d * 8 + s % 8) % 8 = s % 8 := by
    intro s
    rw [Nat.add_comm, Nat.add_mul_mod_self_right]
    omega
  simp only [FC.variantMean, FC.variantTile, hdiv, hmod]
  rw [tileMean_downscale_transform, tileMean_downscale_transform]

/-- C5 counterexample: a decoder run on a full-count offset-only codebook with
offset 3/4 ends in the constant-3/4 estimate; the emitted sample is 0 (clamp
then truncate) while clamp-then-round-to-nearest gives 1, so the emitted
sample is not the clamped pixel rounded to the nearest integer. -/
theorem C5_counterexample :
    FD.emit (FD.decodeLoop 512 4 cbOffset34 (fun _ _ => 0) (fun _ _ => 0) 8) 0 0 = 0 ∧
    FD.emitRoundedSpec (FD.decodeLoop 512 4 cbOffset34 (fun _ _ => 0) (fun _ _ => 0) 8) 0 0
      = 1 := by
  have hval : FD.decodeLoop 512 4 cbOffset34 (fun _ _ => 0) (fun _ _ => 0) 8 0 0 = 3 / 4 :=
    decodeLoop_offset_only 512 4 (by norm_num) (by norm_num) cbOffset34
      (by simp only [cbOffset34, List.length_replicate]) (3 / 4) (fun e he => List.eq_of_mem_replicate he)
      (fun _ _ => 0) (fun _ _ => 0) 8 (by norm_num) 0 0 (by norm_num) (by norm_num)
  have hclamp : FD.clampQ (3 / 4) = 3 / 4 := by
    simp only [FD.clampQ]
    norm_num
  constructor
  · rw [emit_eq_floor_clamp, hval, hclamp]
    norm_num
  · simp only [FD.emitRoundedSpec]
    rw [hval, hclamp]
    rw [round_eq]
    norm_num

/-- C6 counterexample: a well-formed codebook (full record count, in-range
domain and symmetry indices) whose contrasts are 2 drives the all-255 and
all-zero seeds exponentially apart: after the decoder's 8 iterations they
differ by 65280 at pixel (0, 0), not by less than one intensity unit. -/
theorem C6_counterexample :
    cbContrast2.length = (512 / 4) ^ 2 ∧
    (∀ e ∈ cbContrast2, e.domain < (512 / (2 * 4)) ^ 2 ∧ e.sym < 8) ∧
    FD.decodeLoop 512 4 cbContrast2 (fun _ _ => 255) (fun _ _ => 0) 8 0 0 -
      FD.decodeLoop 512 4 cbContrast2 (fun _ _ => 0) (fun _ _ => 0) 8 0 0 = 65280 ∧
    ¬(|FD.decodeLoop 512 4 cbContrast2 (fun _ _ => 255) (fun _ _ => 0) 8 0 0 -
        FD.decodeLoop 512 4 cbContrast2 (fun _ _ => 0) (fun _ _ => 0) 8 0 0| < 1) := by
  have h255 := decodeLoop_geom 512 4 (by norm_num) (by norm_num) (by norm_num)
    cbContrast2 (by simp only [cbContrast2, List.length_replicate]) 2 (fun e he => List.eq_of_mem_replicate he)
    255 (fun _ _ => 255) (fun _ _ => 0) (fun _ _ _ _ => rfl) 8 0 0 (by norm_num) (by norm_num)
  have h0 := decodeLoop_geom 512 4 (by norm_num) (by norm_num) (by norm_num)
    cbContrast2 (by simp only [cbContrast2, List.length_replicate]) 2 (fun e he => List.eq_of_mem_replicate he)
    0 (fun _ _ => 0) (fun _ _ => 0) (fun _ _ _ _ => rfl) 8 0 0 (by norm_num) (by norm_num)
  refine ⟨by simp only [cbContrast2, List.length_replicate], ?_, ?_, ?_⟩
  · intro e he
    rw [List.eq_of_mem_replicate he]
    exact ⟨by norm_num, by norm_num⟩
  · rw [h255, h0]
    norm_num
  · rw [h255, h0]
    norm_num

/-- Every 8×8 domain block of `degImg` is flat: block 0 holds 128 everywhere,
every other block holds 200 everywhere. -/
theorem degImg_domain_flat (d a b : ℕ) (ha : a < 8) (hb : b < 8) :
    block 16 8 degImg d a b = if d = 0 then (128 : ℚ) else 200 := by
  by_cases hd : d = 0
  · subst hd
    simp only [block, degImg]
    rw [if_pos (by omega : 0 / (16 / 8) * 8 + a < 8 ∧ 0 % (16 / 8) * 8 + b < 8)]
    simp
  · simp only [block, degImg]
    rw [if_neg (by omega : ¬(d / (16 / 8) * 8 + a < 8 ∧ d % (16 / 8) * 8 + b < 8)),
      if_neg hd]

/-- Every variant of `degImg` is flat on the 4×4 grid, with value 128 for the
variants of domain block 0 and 200 otherwise. -/
theorem degImg_variant_flat (ℓ i j : ℕ) (hi : i < 4) (hj : j < 4) :
    FC.variantTile 16 4 degImg ℓ i j = if ℓ / 8 = 0 then (128 : ℚ) else 200 := by
  have h := down_trans_const 4 (ℓ % 8) (block 16 (2 * 4) degImg (ℓ / 8))
    (if ℓ / 8 = 0 then (128 : ℚ) else 200) ?_ i j hi hj
  · rw [downscale_shared, transform_shared] at h
    exact h
  · intro a b ha hb
    exact degImg_domain_flat (ℓ / 8) a b (by omega) (by omega)

theorem degImg_variant_mean (ℓ : ℕ) :
    FC.variantMean 16 4 degImg ℓ = if ℓ / 8 = 0 then (128 : ℚ) else 200 :=
  tileMean_const 4 (by norm_num) _ _ fun i j hi hj => degImg_variant_flat ℓ i j hi hj

theorem degImg_variant_energy (ℓ : ℕ) :
    FC.variantEnergy 16 4 degImg ℓ = 0 := by
  simp only [FC.variantEnergy]
  exact centered_sum_zero 4 _ _ (if ℓ / 8 = 0 then (128 : ℚ) else 200) _
    (fun i j hi hj => degImg_variant_flat ℓ i j hi hj)
    (degImg_variant_mean ℓ).symm
    (fun i j hi hj => degImg_variant_flat ℓ i j hi hj)

/-- Range block 15 of `degImg` (rows and columns 12–15) is flat 200. -/
theorem degImg_range_flat (i j : ℕ) (hi : i < 4) (hj : j < 4) :
    FC.rangeBlock 16 4 degImg 15 i j = 200 := by
  simp only [FC.rangeBlock, block, degImg]
  rw [if_neg (by omega : ¬(15 / (16 / 4) * 4 + i < 8 ∧ 15 % (16 / 4) * 4 + j < 8))]

theorem degImg_target_mean : FC.targetMean 16 4 degImg 15 = 200 :=
  tileMean_const 4 (by norm_num) _ _ fun i j hi hj => degImg_range_flat i j hi hj

theorem degImg_target_energy : FC.targetEnergy 16 4 degImg 15 = 0 := by
  simp only [FC.targetEnergy]
  exact centered_sum_zero 4 _ _ 200 _
    (fun i j hi hj => degImg_range_flat i j hi hj)
    degImg_target_mean.symm
    (fun i j hi hj => degImg_range_flat i j hi hj)

theorem degImg_error_zero (ℓ : ℕ) : FC.errorTable 16 4 degImg 15 ℓ = 0 := by
  simp only [FC.errorTable, degImg_variant_energy ℓ]
  rw [if_neg (by norm_num [FC.epsilon]), degImg_target_energy]
  norm_num

theorem degImg_best_zero : FC.bestIndex 16 4 degImg 15 = 0 := by
  simp only [FC.bestIndex]
  exact argminFirst_of_const _ _ fun i _ => by
    rw [degImg_error_zero i, degImg_error_zero 0]

/-- C8: matching the all-128 8×8 domain block of `degImg` against its all-200
4×4 range block yields the entry `(0, 0, contrast 0, offset 200)` with squared
error 0; all variants are equally degenerate (error 0 everywhere) and the
lowest-index variant — variant 0, of the all-128 domain block — is selected. -/
theorem C8_degenerate_block :
    FC.encodeBlock 16 4 degImg 15 = ⟨0, 0, 0, 200⟩ ∧
    FC.errorTable 16 4 degImg 15 (FC.bestIndex 16 4 degImg 15) = 0 ∧
    FC.bestIndex 16 4 degImg 15 = 0 ∧
    (∀ ℓ : ℕ, FC.errorTable 16 4 degImg 15 ℓ = 0) := by
  have hcon : FC.contrastTable 16 4 degImg 15 0 = 0 := by
    simp only [FC.contrastTable, degImg_variant_energy 0]
    rw [if_neg (by norm_num [FC.epsilon])]
  refine ⟨?_, degImg_error_zero _, degImg_best_zero, degImg_error_zero⟩
  simp only [FC.encodeBlock, degImg_best_zero, hcon, degImg_target_mean]
  norm_num

end Fractal
